import Mathlib

/-!
Verification of the Aleph repository's tool layer against its specification.

The repository sources under scrutiny are:
* `src/topology/io/GML.hh` — the GML graph reader (its node/edge build phase);
* `src/src/tools/network_persistence_diagrams.cc` — the network tool;
* `src/src/tools/sparse_adjacency_matrices.cc` — the batch tool.

The core library (`Simplex`, `SimplicialComplex`, `RipsExpander`, the
persistence engine and `PersistenceDiagram`) is not part of the sources;
those components are modelled from the specification, and each such
definition carries a doc comment starting with `Modelled from the spec:`.

Weights (`DataType`, a `double` or `float` in the sources) are embedded as
rational numbers; vertex identifiers (`VertexType`) as natural numbers.
-/

deriving instance DecidableEq for Except

namespace AlephModel

/-! ## Ordered-set insertion (model of `std::set` iteration order)

`std::set` keeps its elements sorted and unique under `operator<`.  The GML
reader iterates such a set to assign numeric vertex ids, so the sorted
order is observable.  `setInsertBy` inserts one element into a sorted
duplicate-free list; `sortedSetBy` folds a whole list in, mirroring a loop
of `std::set::insert` calls. -/

def setInsertBy {α : Type} (lt : α → α → Bool) (x : α) : List α → List α
  | [] => [x]
  | y :: ys =>
    if lt x y then x :: y :: ys
    else if lt y x then y :: setInsertBy lt x ys
    else y :: ys

def sortedSetBy {α : Type} (lt : α → α → Bool) (l : List α) : List α :=
  l.foldl (fun s x => setInsertBy lt x s) []

theorem mem_setInsertBy {α : Type} {lt : α → α → Bool}
    (htri : ∀ a b : α, lt a b = false → lt b a = false → a = b)
    (x a : α) : ∀ s : List α, (a ∈ setInsertBy lt x s ↔ a = x ∨ a ∈ s) := by
  intro s
  induction s with
  | nil => simp [setInsertBy]
  | cons y ys ih =>
    by_cases h1 : lt x y = true
    · simp [setInsertBy, h1]
    · by_cases h2 : lt y x = true
      · rw [show setInsertBy lt x (y :: ys) = y :: setInsertBy lt x ys by
          simp [setInsertBy, h1, h2]]
        simp only [List.mem_cons, ih]
        tauto
      · have hxy : x = y :=
          htri x y (eq_false_of_ne_true h1) (eq_false_of_ne_true h2)
        subst hxy
        rw [show setInsertBy lt x (x :: ys) = x :: ys by
          simp [setInsertBy, h1, h2]]
        simp only [List.mem_cons]
        tauto

theorem pairwise_setInsertBy {α : Type} {lt : α → α → Bool}
    (htri : ∀ a b : α, lt a b = false → lt b a = false → a = b)
    (htrans : ∀ a b c : α, lt a b = true → lt b c = true → lt a c = true)
    (x : α) : ∀ s : List α, s.Pairwise (fun a b => lt a b = true) →
    (setInsertBy lt x s).Pairwise (fun a b => lt a b = true) := by
  intro s
  induction s with
  | nil => simp [setInsertBy]
  | cons y ys ih =>
    intro hp
    rcases List.pairwise_cons.mp hp with ⟨hy, hys⟩
    by_cases h1 : lt x y = true
    · rw [show setInsertBy lt x (y :: ys) = x :: y :: ys by simp [setInsertBy, h1]]
      refine List.pairwise_cons.mpr ⟨?_, hp⟩
      intro b hb
      rcases List.mem_cons.mp hb with hb | hb
      · subst hb; exact h1
      · exact htrans x y b h1 (hy b hb)
    · by_cases h2 : lt y x = true
      · rw [show setInsertBy lt x (y :: ys) = y :: setInsertBy lt x ys by
          simp [setInsertBy, h1, h2]]
        refine List.pairwise_cons.mpr ⟨?_, ih hys⟩
        intro b hb
        rcases (mem_setInsertBy htri x b ys).mp hb with hb | hb
        · subst hb; exact h2
        · exact hy b hb
      · have hxy : x = y :=
          htri x y (eq_false_of_ne_true h1) (eq_false_of_ne_true h2)
        subst hxy
        rw [show setInsertBy lt x (x :: ys) = x :: ys by simp [setInsertBy, h1, h2]]
        exact hp

theorem mem_sortedSetBy {α : Type} {lt : α → α → Bool}
    (htri : ∀ a b : α, lt a b = false → lt b a = false → a = b)
    (a : α) (l : List α) : a ∈ sortedSetBy lt l ↔ a ∈ l := by
  have main : ∀ (l s : List α),
      (a ∈ l.foldl (fun s x => setInsertBy lt x s) s ↔ a ∈ s ∨ a ∈ l) := by
    intro l
    induction l with
    | nil => intro s; simp
    | cons x xs ih =>
      intro s
      rw [List.foldl_cons, ih]
      rw [mem_setInsertBy htri]
      simp [List.mem_cons]
      tauto
  have h := main l []
  simpa [sortedSetBy] using h

theorem pairwise_sortedSetBy {α : Type} {lt : α → α → Bool}
    (htri : ∀ a b : α, lt a b = false → lt b a = false → a = b)
    (htrans : ∀ a b c : α, lt a b = true → lt b c = true → lt a c = true)
    (l : List α) : (sortedSetBy lt l).Pairwise (fun a b => lt a b = true) := by
  have main : ∀ (l s : List α), s.Pairwise (fun a b => lt a b = true) →
      (l.foldl (fun s x => setInsertBy lt x s) s).Pairwise
        (fun a b => lt a b = true) := by
    intro l
    induction l with
    | nil => intro s hs; simpa
    | cons x xs ih =>
      intro s hs
      rw [List.foldl_cons]
      exact ih _ (pairwise_setInsertBy htri htrans x s hs)
  simpa [sortedSetBy] using main l [] (by simp)

theorem nodup_sortedSetBy {α : Type} {lt : α → α → Bool}
    (htri : ∀ a b : α, lt a b = false → lt b a = false → a = b)
    (htrans : ∀ a b c : α, lt a b = true → lt b c = true → lt a c = true)
    (hirr : ∀ a : α, lt a a = false)
    (l : List α) : (sortedSetBy lt l).Nodup := by
  have hp := pairwise_sortedSetBy htri htrans l
  refine hp.imp ?_
  intro a b hab
  intro he
  subst he
  rw [hirr a] at hab
  exact Bool.false_ne_true hab

theorem length_sortedSetBy {α : Type} [DecidableEq α] {lt : α → α → Bool}
    (htri : ∀ a b : α, lt a b = false → lt b a = false → a = b)
    (htrans : ∀ a b c : α, lt a b = true → lt b c = true → lt a c = true)
    (hirr : ∀ a : α, lt a a = false)
    (l : List α) : (sortedSetBy lt l).length = l.dedup.length := by
  have h1 : (sortedSetBy lt l).toFinset = l.toFinset := by
    ext a
    simp only [List.mem_toFinset]
    exact mem_sortedSetBy htri a l
  have h2 : (sortedSetBy lt l).toFinset.card = (sortedSetBy lt l).length :=
    List.toFinset_card_of_nodup (nodup_sortedSetBy htri htrans hirr l)
  have h3 : l.toFinset.card = l.dedup.length := List.card_toFinset l
  rw [← h2, h1, h3]

theorem dedup_length_lt_of_not_nodup {α : Type} [DecidableEq α] :
    ∀ {l : List α}, ¬ l.Nodup → l.dedup.length < l.length := by
  intro l
  induction l with
  | nil => intro h; exact absurd List.nodup_nil h
  | cons a t ih =>
    intro h
    by_cases ha : a ∈ t
    · rw [List.dedup_cons_of_mem ha]
      calc t.dedup.length ≤ t.length := (List.dedup_sublist t).length_le
        _ < (a :: t).length := by simp
    · rw [List.dedup_cons_of_not_mem ha]
      have hnt : ¬ t.Nodup := by
        intro hnodup
        exact h (List.nodup_cons.mpr ⟨ha, hnodup⟩)
      have := ih hnt
      simpa using Nat.succ_lt_succ this

theorem nodup_of_dedup_length_eq {α : Type} [DecidableEq α] {l : List α}
    (h : l.dedup.length = l.length) : l.Nodup := by
  have hsub := List.dedup_sublist l
  have heq : l.dedup = l := hsub.eq_of_length h
  have := List.nodup_dedup l
  rwa [heq] at this

/-! ## Concrete comparisons: natural numbers and strings

`strLt` mirrors `std::string` comparison (byte-wise lexicographic; on the
alphabetic identifiers admitted by the GML reader's regular expressions
this agrees with comparing unicode scalar values). -/

def natLtB (a b : ℕ) : Bool := decide (a < b)

theorem natLtB_tri (a b : ℕ) (h1 : natLtB a b = false) (h2 : natLtB b a = false) :
    a = b := by
  simp only [natLtB, decide_eq_false_iff_not] at h1 h2
  omega

theorem natLtB_trans (a b c : ℕ) (h1 : natLtB a b = true) (h2 : natLtB b c = true) :
    natLtB a c = true := by
  simp only [natLtB, decide_eq_true_eq] at h1 h2 ⊢
  omega

theorem natLtB_irr (a : ℕ) : natLtB a a = false := by
  simp [natLtB]

def charListLt : List Char → List Char → Bool
  | [], [] => false
  | [], _ :: _ => true
  | _ :: _, [] => false
  | a :: as, b :: bs =>
    if a.toNat < b.toNat then true
    else if b.toNat < a.toNat then false
    else charListLt as bs

def strLt (a b : String) : Bool := charListLt a.toList b.toList

theorem char_toNat_inj {a b : Char} (h : a.toNat = b.toNat) : a = b :=
  Char.ext (UInt32.ext h)

theorem charListLt_tri : ∀ as bs : List Char,
    charListLt as bs = false → charListLt bs as = false → as = bs := by
  intro as
  induction as with
  | nil =>
    intro bs h1 _
    cases bs with
    | nil => rfl
    | cons b t => simp [charListLt] at h1
  | cons a t ih =>
    intro bs h1 h2
    cases bs with
    | nil => simp [charListLt] at h2
    | cons b u =>
      simp only [charListLt] at h1 h2
      by_cases hab : a.toNat < b.toNat
      · simp [hab] at h1
      · by_cases hba : b.toNat < a.toNat
        · simp [hba, hab] at h2
        · have : a = b := char_toNat_inj (by omega)
          subst this
          simp only [hab, if_false] at h1 h2
          rw [ih u h1 h2]

theorem charListLt_trans : ∀ as bs cs : List Char,
    charListLt as bs = true → charListLt bs cs = true →
    charListLt as cs = true := by
  intro as
  induction as with
  | nil =>
    intro bs cs h1 h2
    cases bs with
    | nil => simp [charListLt] at h1
    | cons b u =>
      cases cs with
      | nil => simp [charListLt] at h2
      | cons c v => simp [charListLt]
  | cons a t ih =>
    intro bs cs h1 h2
    cases bs with
    | nil => simp [charListLt] at h1
    | cons b u =>
      cases cs with
      | nil => simp [charListLt] at h2
      | cons c v =>
        simp only [charListLt] at h1 h2 ⊢
        by_cases hab : a.toNat < b.toNat
        · by_cases hbc : b.toNat < c.toNat
          · simp [show a.toNat < c.toNat by omega]
          · by_cases hcb : c.toNat < b.toNat
            · simp [hcb, show ¬ b.toNat < c.toNat from hbc] at h2
            · have : b.toNat = c.toNat := by omega
              simp [show a.toNat < c.toNat by omega]
        · by_cases hba : b.toNat < a.toNat
          · simp [hab, hba] at h1
          · have heq : a.toNat = b.toNat := by omega
            by_cases hbc : b.toNat < c.toNat
            · simp [show a.toNat < c.toNat by omega]
            · by_cases hcb : c.toNat < b.toNat
              · simp [hcb, hbc] at h2
              · have heq2 : b.toNat = c.toNat := by omega
                simp only [show ¬ a.toNat < c.toNat by omega, if_false,
                  show ¬ c.toNat < a.toNat by omega]
                simp only [hab, if_false, hba] at h1
                simp only [hbc, if_false, hcb] at h2
                exact ih u v h1 h2

theorem charListLt_irr : ∀ as : List Char, charListLt as as = false := by
  intro as
  induction as with
  | nil => rfl
  | cons a t ih => simp [charListLt, ih]

theorem strLt_tri (a b : String) (h1 : strLt a b = false)
    (h2 : strLt b a = false) : a = b := by
  have h := charListLt_tri a.toList b.toList h1 h2
  exact String.ext h

theorem strLt_trans (a b c : String) (h1 : strLt a b = true)
    (h2 : strLt b c = true) : strLt a c = true :=
  charListLt_trans a.toList b.toList c.toList h1 h2

theorem strLt_irr (a : String) : strLt a a = false :=
  charListLt_irr a.toList

/-! ## Simplex and SimplicialComplex -/

/-- Modelled from the spec: a `Simplex` is a canonical (sorted,
duplicate-free) vertex-set together with one scalar filtration value
(`data`).  The dimension is derived from the vertex count, never stored. -/
structure Simplex where
  vertices : List ℕ
  data : ℚ
deriving DecidableEq

/-- Canonical form of a vertex list: sorted and duplicate-free, as the
`Simplex` constructor establishes on construction. -/
def canonNat (vs : List ℕ) : List ℕ := sortedSetBy natLtB vs

/-- Modelled from the spec: constructing a `Simplex` from a vertex list
deduplicates and sorts the vertices. -/
def mkSimplex (vs : List ℕ) (d : ℚ) : Simplex := ⟨canonNat vs, d⟩

def Simplex.dimension (s : Simplex) : ℕ := s.vertices.length - 1

/-- Modelled from the spec: a `SimplicialComplex` owns its simplices and
exposes a stored total order; we embed it as the list of simplices in
stored order.  (Set-uniqueness by vertex-set is established by the readers
and expander and not re-validated, as in the source.) -/
abbrev SimplicialComplex : Type := List Simplex

/-! ## GML reader: node / edge build phase (`src/topology/io/GML.hh`)

The line-level parsing loop (regular expressions over the input stream) is
I/O; the build phase starting at the comment `Creates nodes (vertices)`
is embedded below.  A parsed node carries its `id` string and the optional
converted `weight` attribute from its dictionary; a parsed edge carries
`source`, `target` and its optional converted `weight`.  (The string-to-
`DataType` conversion `convert<DataType>` lives outside `src/`, so weights
appear here already converted.) -/

structure Node where
  id : String
  weight : Option ℚ
deriving DecidableEq

structure Edge where
  source : String
  target : String
  weight : Option ℚ
deriving DecidableEq

def dummySimplex : Simplex := ⟨[], 0⟩

def dummyEdge : Edge := ⟨"", "", none⟩

/-- Model of `getSimplexByID` of the GML reader: the first simplex in the vector
that has dimension 0 and whose single vertex is `id` (a dimension-0
simplex with vertex `u` is exactly one with vertex list `[u]`). -/
def getSimplexByID (simplices : List Simplex) (id : ℕ) : Option Simplex :=
  simplices.find? (fun s => s.vertices == [id])

/-- The edge-creation loop of `GMLReader::operator()` (GML.hh lines
236-258): edges are processed in order and appended to the simplex
vector; an edge without a `weight` attribute looks up the 0-simplices of
its endpoints in the vector built so far and takes the maximum of their
values; a lookup miss throws
`Querying unknown simplex for edge creation`. -/
def processEdges (gid : String → ℕ) :
    List Simplex → List Edge → Except String (List Simplex)
  | acc, [] => Except.ok acc
  | acc, e :: es =>
    let u := gid e.source
    let v := gid e.target
    match e.weight with
    | some w => processEdges gid (acc ++ [mkSimplex [u, v] w]) es
    | none =>
      match getSimplexByID acc u, getSimplexByID acc v with
      | some uSimplex, some vSimplex =>
        processEdges gid
          (acc ++ [mkSimplex [u, v] (max uSimplex.data vSimplex.data)]) es
      | _, _ => Except.error ("Querying unknown simplex for edge creation")

/-- The `std::set<std::string> nodeIDs` of the reader: all parsed node
ids, sorted and unique. -/
def gmlNodeIDs (nodes : List Node) : List String :=
  sortedSetBy strLt (nodes.map Node.id)

/-- The reader's `getID` lambda: the distance from the set's begin to the
position of `id`, which is the set's size when `id` is absent
(`List.indexOf` returns the list's length in that case). -/
def gmlGid (nodes : List Node) (id : String) : ℕ :=
  (gmlNodeIDs nodes).indexOf id

/-- The node-creation loop (GML.hh lines 210-218): one 0-simplex per
node, with the node's `weight` attribute as value, or a value-initialized
`DataType()`, i.e. 0, when absent. -/
def gmlNodeSimplices (nodes : List Node) : List Simplex :=
  nodes.map (fun nd => mkSimplex [gmlGid nodes nd.id] (nd.weight.getD 0))

/-- The build phase of `GMLReader::operator()` (GML.hh lines 188-261):
collect node ids into a `std::set` (sorted, unique), reject duplicate
node ids (`nodeIDs.size() != nodes.size()`), create the node simplices,
then process the edges. -/
def gmlBuild (nodes : List Node) (edges : List Edge) :
    Except String (List Simplex) :=
  if (gmlNodeIDs nodes).length = nodes.length then
    processEdges (gmlGid nodes) (gmlNodeSimplices nodes) edges
  else Except.error ("Encountered duplicate node ID")

/-- The first node declaration carrying a given id (used to phrase
properties of the reader; with duplicate ids rejected it is the unique
such node). -/
def findNode (nodes : List Node) (id : String) : Option Node :=
  nodes.find? (fun nd => nd.id == id)

/-! ## Filtration order (`aleph::topology::filtrations::Data`)

Modelled from the spec: the stored order used before handing a complex to
the persistence engine sorts by filtration value ascending, dimension
ascending on ties, original sequence position as final tiebreak
(a stable sort). -/

def dataLe (a b : Simplex) : Bool :=
  decide (a.data < b.data ∨ (a.data = b.data ∧ a.dimension ≤ b.dimension))

def insertByData (s : Simplex) : List Simplex → List Simplex
  | [] => [s]
  | t :: ts => if dataLe s t then s :: t :: ts else t :: insertByData s ts

/-- Stable insertion sort under `dataLe`; models
`K.sort( aleph::topology::filtrations::Data<Simplex>() )`. -/
def sortData (K : SimplicialComplex) : SimplicialComplex :=
  K.foldr insertByData []

/-! ## RipsExpander (`aleph/geometry/RipsExpander.hh`, not under `src/`) -/

def verticesOf (K : SimplicialComplex) : List ℕ :=
  sortedSetBy natLtB
    ((K.filter (fun s => s.dimension == 0)).map (fun s => s.vertices.headD 0))

def hasEdge (K : SimplicialComplex) (u v : ℕ) : Bool :=
  K.any (fun s => s.vertices == canonNat [u, v] && s.dimension == 1)

def isClique (K : SimplicialComplex) : List ℕ → Bool
  | [] => true
  | v :: vs => vs.all (fun w => hasEdge K v w) && isClique K vs

/-- The value carried in `K` by the simplex with the given vertex-set
(0 when no such simplex is present). -/
def origData (K : SimplicialComplex) (vs : List ℕ) : ℚ :=
  ((K.find? (fun s => s.vertices == vs)).map Simplex.data).getD 0

/-- Modelled from the spec: the Vietoris-Rips expansion of a weighted
0/1-skeleton up to dimension `maxK` contains every simplex of dimension
at most `maxK` whose vertex-set is a clique in the 1-skeleton; simplices
already present keep their values, newly generated ones receive their
value in a separate aggregation pass (`assignMaxWeight` below).  It is a
stateless transform returning a new complex. -/
def ripsExpand (K : SimplicialComplex) (maxK : ℕ) : SimplicialComplex :=
  ((verticesOf K).sublists.filter
      (fun vs => (decide (1 ≤ vs.length) && decide (vs.length ≤ maxK + 1))
        && isClique K vs)).map
    (fun vs => { vertices := vs, data := origData K vs })

def faces (vs : List ℕ) : List (List ℕ) :=
  (List.range vs.length).map (fun i => vs.eraseIdx i)

/-- Modelled from the spec: the "maximum" aggregation assigns every
simplex of dimension at least 2 the maximum of its codimension-1 faces'
values, recursively by dimension; simplices of dimension 0 and 1 keep the
value they carry in `K`.  The fuel argument (the vertex count) bounds the
recursion depth; every face has one vertex fewer, so it always suffices. -/
def maxAggValue (K : SimplicialComplex) : ℕ → List ℕ → ℚ
  | 0, vs => origData K vs
  | fuel + 1, vs =>
    if vs.length ≤ 2 then origData K vs
    else ((faces vs).map (maxAggValue K fuel)).max?.getD 0

/-- Models `RipsExpander::assignMaximumWeight`. -/
def assignMaxWeight (K : SimplicialComplex) : SimplicialComplex :=
  K.map (fun s =>
    { vertices := s.vertices,
      data := maxAggValue K s.vertices.length s.vertices })

/-! ## Persistence engine (`aleph/persistentHomology/Calculation.hh`,
not under `src/`), modelled from the spec's algorithm (§4.3) -/

/-- Modelled from the spec: a persistence-diagram point, a birth value
with the death either finite (`some`) or the unpaired / infinite
sentinel (`none`). -/
structure Point where
  x : ℚ
  y : Option ℚ
deriving DecidableEq

/-- Modelled from the spec: one diagram per homological dimension. -/
structure PersistenceDiagram where
  dim : ℕ
  points : List Point
deriving DecidableEq

/-- Toggle one element of a sorted duplicate-free index set. -/
def xorElem (x : ℕ) : List ℕ → List ℕ
  | [] => [x]
  | y :: ys =>
    if x < y then x :: y :: ys
    else if y < x then y :: xorElem x ys
    else ys

/-- Symmetric difference (mod-2 combination) of two sorted boundary
columns, the reduction algorithm's column-elimination step. -/
def symDiff (xs ys : List ℕ) : List ℕ :=
  xs.foldl (fun acc x => xorElem x acc) ys

/-- The sparse boundary column of the `j`-th simplex in filtration order:
the sorted set of column indices of its codimension-1 faces. -/
def boundaryColumn (L : List Simplex) (j : ℕ) : List ℕ :=
  let s := L.getD j dummySimplex
  if s.vertices.length ≤ 1 then []
  else
    sortedSetBy natLtB
      ((List.range s.vertices.length).map
        (fun i => L.findIdx (fun t => t.vertices == s.vertices.eraseIdx i)))

/-- One column's reduction: while the column's low index (its largest,
i.e. lowest-positioned, nonzero row index) is owned by an earlier pivot
column, combine with that column.  Every combination strictly decreases
the low index, so a fuel of the complex's size always suffices. -/
def reduceColumn (cols : List (List ℕ)) (pivots : List (ℕ × ℕ)) :
    ℕ → List ℕ → List ℕ
  | 0, c => c
  | fuel + 1, c =>
    match c.getLast? with
    | none => c
    | some low =>
      match pivots.lookup low with
      | none => c
      | some p => reduceColumn cols pivots fuel (symDiff c (cols.getD p []))

structure RedState where
  cols : List (List ℕ)
  pivots : List (ℕ × ℕ)
  pairs : List (ℕ × ℕ)

def reductionStep (L : List Simplex) (st : RedState) (j : ℕ) : RedState :=
  let c := reduceColumn st.cols st.pivots L.length (boundaryColumn L j)
  match c.getLast? with
  | none => { cols := st.cols ++ [c], pivots := st.pivots, pairs := st.pairs }
  | some low =>
    { cols := st.cols ++ [c], pivots := st.pivots ++ [(low, j)],
      pairs := st.pairs ++ [(low, j)] }

/-- Left-to-right boundary-matrix reduction over all columns. -/
def runReduction (L : List Simplex) : RedState :=
  (List.range L.length).foldl (reductionStep L) ⟨[], [], []⟩

def maxDimOf (L : List Simplex) : ℕ :=
  L.foldl (fun m s => max m s.dimension) 0

/-- Modelled from the spec: the persistence engine consumes a
filtration-ordered complex and produces one diagram per dimension.  Each
recorded pair `(i, j)` contributes `(value i, value j)` to the diagram of
`dimension i`; when `includeAllUnpairedCreators` is set, every creator
(empty column) never claimed as a low index contributes an unpaired point
at its value.  The dualized mode is required by the spec to produce
diagrams identical to the non-dualized run, so both flags select the same
reduction here. -/
def calculatePersistenceDiagrams (L : SimplicialComplex)
    (dualize includeAllUnpairedCreators : Bool) : List PersistenceDiagram :=
  let _ := dualize
  let st := runReduction L
  (List.range (maxDimOf L + 1)).map (fun d =>
    { dim := d
      points :=
        (st.pairs.filterMap (fun ij =>
          if (L.getD ij.1 dummySimplex).dimension = d then
            some { x := (L.getD ij.1 dummySimplex).data,
                   y := some ((L.getD ij.2 dummySimplex).data) }
          else none))
        ++
        (if includeAllUnpairedCreators then
          (List.range L.length).filterMap (fun j =>
            if (st.cols.getD j []).isEmpty
                && st.pairs.all (fun ij => ij.1 != j)
                && ((L.getD j dummySimplex).dimension == d) then
              some { x := (L.getD j dummySimplex).data, y := none }
            else none)
        else []) })

/-- Models `PersistenceDiagram::removeDiagonal`: drop every point whose
birth equals its (finite) death; unpaired points are never dropped. -/
def removeDiagonal (pd : PersistenceDiagram) : PersistenceDiagram :=
  { dim := pd.dim, points := pd.points.filter (fun p => !(p.y == some p.x)) }

/-- Validation of the modelled engine against the spec's first triangle
scenario (spec section 8): triangle with vertices at 0 and edges 1, 2, 3,
expanded to dimension 1 only — the dimension-0 diagram holds one unpaired
point at birth 0 and the finite points (0,1) and (0,2); the dimension-1
diagram holds one unpaired point at birth 3. -/
theorem spec_scenario_triangle_k1 :
    (calculatePersistenceDiagrams
      (sortData [⟨[0], 0⟩, ⟨[1], 0⟩, ⟨[2], 0⟩,
        ⟨[0, 1], 1⟩, ⟨[0, 2], 2⟩, ⟨[1, 2], 3⟩]) false true).map removeDiagonal
    = [⟨0, [⟨0, some 1⟩, ⟨0, some 2⟩, ⟨0, none⟩]⟩, ⟨1, [⟨3, none⟩]⟩] := by
  decide

/-- Validation of the modelled engine against the spec's second triangle
scenario (spec section 8): the same triangle expanded to dimension 2 with
maximum aggregation fills the cycle with a (3,3) pair, which
`removeDiagonal` removes, leaving the dimension-1 diagram empty. -/
theorem spec_scenario_triangle_k2 :
    (calculatePersistenceDiagrams
      (sortData (assignMaxWeight (ripsExpand
        [⟨[0], 0⟩, ⟨[1], 0⟩, ⟨[2], 0⟩,
         ⟨[0, 1], 1⟩, ⟨[0, 2], 2⟩, ⟨[1, 2], 3⟩] 2))) false true).map
      removeDiagonal
    = [⟨0, [⟨0, some 1⟩, ⟨0, some 2⟩, ⟨0, none⟩]⟩, ⟨1, []⟩, ⟨2, []⟩] := by
  decide

/-! ## The network tool (`src/src/tools/network_persistence_diagrams.cc`)

The tool's pre-processing first scans all simplices for the minimum and
maximum weight (source lines 140-146, with `numeric_limits` sentinels as
initial values; embedded as `Option` extrema — for an empty complex the
sentinels survive, but then no simplex is ever transformed and no diagram
point is ever printed, so the sentinel values are unobservable). -/

def allWeights (K : SimplicialComplex) : List ℚ := K.map Simplex.data

/-- The normalization block (source lines 148-169): executed only when
requested and `maxWeight != minWeight`; it maps every simplex of dimension
at least 1 to `(data - minWeight) / (maxWeight - minWeight)`, skipping
dimension-0 simplices.  The division lives inside the guarded branch. -/
def normalizeStep (normalize : Bool) (K : SimplicialComplex) :
    SimplicialComplex :=
  if normalize = true ∧ (allWeights K).max? ≠ (allWeights K).min? then
    match (allWeights K).max?, (allWeights K).min? with
    | some maxWeight, some minWeight =>
      let range := maxWeight - minWeight
      K.map (fun s =>
        if s.dimension = 0 then s
        else { vertices := s.vertices, data := (s.data - minWeight) / range })
    | _, _ => K
  else K

/-- The value of the tool's `maxWeight` variable after the normalization
block: reset to 1 exactly when the block ran (source line 165), otherwise
still the maximum observed weight. -/
def networkMaxWVar (normalize : Bool) (K : SimplicialComplex) : Option ℚ :=
  if normalize = true ∧ (allWeights K).max? ≠ (allWeights K).min? then some 1
  else (allWeights K).max?

/-- The weight-inversion block (source lines 171-187): maps every simplex
of dimension at least 1 to `maxWeight - data`, using the `maxWeight`
variable's current value. -/
def invertStep (invert : Bool) (maxWeightVar : Option ℚ)
    (K : SimplicialComplex) : SimplicialComplex :=
  if invert then
    K.map (fun s =>
      if s.dimension = 0 then s
      else { vertices := s.vertices, data := maxWeightVar.getD 0 - s.data })
  else K

/-- The processed complex handed to the persistence engine by the network
tool: pre-processing, Rips expansion with maximum-weight assignment
(source lines 193-197), then the filtration sort (line 202). -/
def networkProcessed (normalize invert : Bool) (maxK : ℕ)
    (K : SimplicialComplex) : SimplicialComplex :=
  let K1 := normalizeStep normalize K
  let K2 := invertStep invert (networkMaxWVar normalize K) K1
  sortData (assignMaxWeight (ripsExpand K2 maxK))

/-- The diagrams the network tool iterates over, after `removeDiagonal`
(source lines 208-215).  The one-argument call of
`calculatePersistenceDiagrams` uses the engine's defaults, modelled as
the non-dualized run reporting all unpaired creators (the spec's §8
scenarios show unpaired points in this tool's diagrams). -/
def networkDiagramsOut (normalize invert : Bool) (maxK : ℕ)
    (K : SimplicialComplex) : List PersistenceDiagram :=
  (calculatePersistenceDiagrams (networkProcessed normalize invert maxK K)
    false true).map removeDiagonal

/-- The per-diagram text records written by the network tool (source lines
225-237): the `std::transform` replaces every non-finite death by
`2 * maxWeight`, then one `birth<TAB>death` line per point is printed; a
line is embedded as its (birth, death) pair of rationals. -/
def networkLines (normalize invert : Bool) (maxK : ℕ)
    (K : SimplicialComplex) : List (ℕ × List (ℚ × ℚ)) :=
  (networkDiagramsOut normalize invert maxK K).map (fun pd =>
    let transformed := pd.points.map (fun p =>
      match p.y with
      | none =>
        { x := p.x, y := some (2 * (networkMaxWVar normalize K).getD 0) :
          Point }
      | some _ => p)
    (pd.dim, transformed.map (fun p => (p.x, p.y.getD 0))))

/-! ## The batch tool (`src/src/tools/sparse_adjacency_matrices.cc`) -/

/-- Modelled from the spec: the degree of a vertex is the number of
1-simplices (edges) of the complex containing it
(`aleph::topology::filtrations::degrees`, not under `src/`). -/
def degreeOf (K : SimplicialComplex) (v : ℕ) : ℕ :=
  (K.filter (fun s => s.dimension == 1 && s.vertices.contains v)).length

/-- The per-complex degree list used at source lines 225-228: one entry
per 0-simplex of the complex, in stored order. -/
def degreesList (K : SimplicialComplex) : List ℕ :=
  (K.filter (fun s => s.dimension == 0)).map
    (fun s => degreeOf K (s.vertices.headD 0))

/-- The expansion step of the batch tool (source lines 207-215): the
tool invokes the expander but discards its returned complex
(`expander( K, dimension );`), so the complex continues unchanged —
`RipsExpander` is a stateless transform returning a new complex and does
not mutate its argument. -/
def batchExpansionStep (dimension : ℕ) (K : SimplicialComplex) :
    SimplicialComplex :=
  if dimension ≠ 0 then
    let _discarded := ripsExpand K dimension
    K
  else K

/-- Modelled from the spec: `assignMaximumData` realizes the degree
filtration — every simplex receives the maximum of its vertices' degree
values; `assignData` with the addition functor realizes the degree-sum
filtration (source lines 237-240). -/
def batchFiltration (useSumOfDegrees : Bool) (K : SimplicialComplex) :
    SimplicialComplex :=
  K.map (fun s =>
    { vertices := s.vertices,
      data :=
        if useSumOfDegrees then
          ((s.vertices.map (degreeOf K)).foldl (fun a b => a + b) 0 : ℕ)
        else ((s.vertices.map (degreeOf K)).foldl max 0 : ℕ) })

/-- The complex the batch tool hands to the persistence engine for one
input graph: discarded expansion, degree(-sum) filtration, filtration
sort (source lines 207-243). -/
def batchProcessComplex (useSumOfDegrees : Bool) (dimension : ℕ)
    (K : SimplicialComplex) : SimplicialComplex :=
  sortData (batchFiltration useSumOfDegrees (batchExpansionStep dimension K))

/-- One step of the running `maxDegree` maximum (source lines 219-235):
skipped for a complex with no vertices, otherwise the maximum of the
accumulator and the complex's largest degree. -/
def maxDegreeStep (m : ℕ) (K : SimplicialComplex) : ℕ :=
  if (degreesList K).isEmpty then m
  else max m ((degreesList K).foldl max 0)

/-- The batch-wide maximum degree: accumulated over every complex of the
batch, in processing order. -/
def totalMaxDegree (batch : List SimplicialComplex) : ℕ :=
  batch.foldl maxDegreeStep 0

/-- The diagrams the batch tool iterates over for one graph, after
`removeDiagonal` (source lines 274-286; the tool passes `dualize = true`
and `includeAllUnpairedCreators = true`). -/
def batchDiagramsOut (useSumOfDegrees : Bool) (dimension : ℕ)
    (K : SimplicialComplex) : List PersistenceDiagram :=
  (calculatePersistenceDiagrams (batchProcessComplex useSumOfDegrees dimension K)
    true true).map removeDiagonal

/-- The per-diagram text records written by the batch tool for one graph
of a batch (source lines 294-302): `x<TAB>infinity * maxDegree` for an
unpaired point, `x<TAB>y` otherwise; a line is embedded as its (birth,
death) pair. -/
def batchRecords (infinity : ℚ) (useSumOfDegrees : Bool) (dimension : ℕ)
    (batch : List SimplicialComplex) (K : SimplicialComplex) :
    List (ℕ × List (ℚ × ℚ)) :=
  (batchDiagramsOut useSumOfDegrees dimension K).map (fun pd =>
    (pd.dim, pd.points.map (fun p =>
      match p.y with
      | none => (p.x, infinity * (totalMaxDegree batch : ℚ))
      | some yy => (p.x, yy))))

/-- The same records with an explicitly supplied finite substitute for
unpaired deaths (used to state which value the tool actually writes). -/
def recordsWithSub (sub : ℚ) (useSumOfDegrees : Bool) (dimension : ℕ)
    (K : SimplicialComplex) : List (ℕ × List (ℚ × ℚ)) :=
  (batchDiagramsOut useSumOfDegrees dimension K).map (fun pd =>
    (pd.dim, pd.points.map (fun p => (p.x, p.y.getD sub))))

/-- The largest degree of one graph on its own (the value `maxDegree`
would have if the batch contained only this graph). -/
def ownMaxDegree (K : SimplicialComplex) : ℕ := maxDegreeStep 0 K

/-! ## Command-line surface of the two tools

`getopt_long` is C library code; its outcome is modelled as a list of
recognized parsed arguments: flags, option arguments (with the numeric
conversions of `--dimension` / `--infinity` already applied, as those
conversions live outside `src/`), and positional (non-option) arguments. -/

inductive CmdArg where
  | flag (c : Char)
  | flagNat (c : Char) (value : ℕ)
  | flagRat (c : Char) (value : ℚ)
  | flagStr (c : Char) (value : String)
  | positional (s : String)
deriving DecidableEq

def positionalArgs (args : List CmdArg) : List String :=
  args.filterMap (fun a =>
    match a with
    | CmdArg.positional s => some s
    | _ => none)

/-- How a tool's process ends: `usageError` models `return -1` after the
argument-count check; `aborted` models an exception escaping `main`
(uncaught, terminating the process without producing a result);
`completed` models falling off the end of `main` (exit status 0) with the
produced records. -/
inductive ToolOutcome (α : Type) where
  | usageError
  | aborted (msg : String)
  | completed (result : α)
deriving DecidableEq

/-- The process exit status: `some code` for a normal return, `none` for
abnormal termination by an uncaught exception. -/
def exitStatus {α : Type} : ToolOutcome α → Option Int
  | ToolOutcome.usageError => some (-1)
  | ToolOutcome.aborted _ => none
  | ToolOutcome.completed _ => some 0

/-- Model of `std::stoul` on a plain decimal numeral: `some` of its value
on a non-empty all-digit string, `none` (a thrown `invalid_argument`)
otherwise. -/
def stoulModel (s : String) : Option ℕ :=
  match s.toList with
  | [] => none
  | c :: cs =>
    if (c :: cs).all (fun d => decide (48 ≤ d.toNat) && decide (d.toNat ≤ 57))
    then some ((c :: cs).foldl (fun n d => 10 * n + (d.toNat - 48)) 0)
    else none

/-- Model of `main` of the network tool (source lines 72-239): parse flags, require
two positional arguments (filename and expansion dimension), convert the
dimension with `std::stoul` (throwing on an unparsable value), read the
input file (throwing `Unable to read input file` if unreadable, GML.hh
lines 46-53; `none` models an unreadable or unparsable input), then run
the pipeline to completion. -/
def networkMain (args : List CmdArg) (input : Option SimplicialComplex) :
    ToolOutcome (List (ℕ × List (ℚ × ℚ))) :=
  let invertWeights := args.contains (CmdArg.flag 'i')
  let normalize := args.contains (CmdArg.flag 'n')
  let ps := positionalArgs args
  if ps.length < 2 then ToolOutcome.usageError
  else
    match stoulModel (ps.getD 1 "") with
    | none => ToolOutcome.aborted ("stoul: invalid argument")
    | some maxK =>
      match input with
      | none => ToolOutcome.aborted ("Unable to read input file")
      | some K =>
        ToolOutcome.completed (networkLines normalize invertWeights maxK K)

/-- Model of `main` of the batch tool (source lines 95-324): parse options (the
last occurrence of a repeated option wins; `--infinity` defaults to 2 and
`--dimension` to 0), require one positional argument, read the input file
(the reader aborts the run on a file-access error), then produce the
records of every graph of the batch. -/
def batchMain (args : List CmdArg)
    (input : Option (List SimplicialComplex)) :
    ToolOutcome (List (List (ℕ × List (ℚ × ℚ)))) :=
  let dimension :=
    ((args.filterMap (fun a =>
      match a with
      | CmdArg.flagNat c v => if c = 'd' then some v else none
      | _ => none)).getLast?).getD 0
  let infinity :=
    ((args.filterMap (fun a =>
      match a with
      | CmdArg.flagRat c v => if c = 'f' then some v else none
      | _ => none)).getLast?).getD 2
  let useSumOfDegrees := args.contains (CmdArg.flag 's')
  let ps := positionalArgs args
  if ps.length < 1 then ToolOutcome.usageError
  else
    match input with
    | none => ToolOutcome.aborted ("Unable to read input file")
    | some batch =>
      ToolOutcome.completed
        (batch.map (fun K =>
          batchRecords infinity useSumOfDegrees dimension batch K))

/-! ## Generic helper lemmas -/

theorem foldl_min_le_init {α : Type} [LinearOrder α] :
    ∀ (xs : List α) (acc : α), xs.foldl min acc ≤ acc := by
  intro xs
  induction xs with
  | nil => intro acc; exact le_refl acc
  | cons y ys ih =>
    intro acc
    rw [List.foldl_cons]
    exact le_trans (ih (min acc y)) (min_le_left acc y)

theorem foldl_min_le_mem {α : Type} [LinearOrder α] :
    ∀ (xs : List α) (acc a : α), a ∈ xs → xs.foldl min acc ≤ a := by
  intro xs
  induction xs with
  | nil => intro acc a ha; exact absurd ha (List.not_mem_nil a)
  | cons y ys ih =>
    intro acc a ha
    rw [List.foldl_cons]
    rcases List.mem_cons.mp ha with ha | ha
    · subst ha
      exact le_trans (foldl_min_le_init ys (min acc a)) (min_le_right acc a)
    · exact ih (min acc y) a ha

theorem min?_le_of_mem {α : Type} [LinearOrder α] {l : List α} {a m : α}
    (hm : l.min? = some m) (ha : a ∈ l) : m ≤ a := by
  cases l with
  | nil => exact absurd ha (List.not_mem_nil a)
  | cons x xs =>
    simp only [List.min?] at hm
    rcases List.mem_cons.mp ha with ha | ha
    · subst ha
      rw [← Option.some_inj.mp hm]
      exact foldl_min_le_init xs a
    · rw [← Option.some_inj.mp hm]
      exact foldl_min_le_mem xs x a ha

theorem foldl_min_eq {α : Type} [LinearOrder α] {a : α} :
    ∀ (xs : List α) (acc : α), (a = acc ∨ a ∈ xs) → a ≤ acc →
      (∀ x ∈ xs, a ≤ x) → xs.foldl min acc = a := by
  intro xs
  induction xs with
  | nil =>
    intro acc hmem hle _
    rcases hmem with h | h
    · exact h.symm
    · exact absurd h (List.not_mem_nil a)
  | cons y ys ih =>
    intro acc hmem hacc hall
    rw [List.foldl_cons]
    have hay : a ≤ y := hall y (List.mem_cons_self y ys)
    apply ih
    · rcases hmem with h | h
      · subst h
        exact Or.inl (min_eq_left hay).symm
      · rcases List.mem_cons.mp h with h | h
        · subst h
          exact Or.inl (min_eq_right hacc).symm
        · exact Or.inr h
    · exact le_min hacc hay
    · intro x hx; exact hall x (List.mem_cons_of_mem y hx)

theorem min?_eq_some_of_mem_of_le {α : Type} [LinearOrder α] {l : List α}
    {a : α} (ha : a ∈ l) (hle : ∀ x ∈ l, a ≤ x) : l.min? = some a := by
  cases l with
  | nil => exact absurd ha (List.not_mem_nil a)
  | cons x xs =>
    simp only [List.min?, Option.some_inj]
    rcases List.mem_cons.mp ha with h | h
    · exact foldl_min_eq xs x (Or.inl h)
        (le_of_eq h) (fun z hz => hle z (List.mem_cons_of_mem x hz))
    · exact foldl_min_eq xs x (Or.inr h)
        (hle x (List.mem_cons_self x xs))
        (fun z hz => hle z (List.mem_cons_of_mem x hz))

theorem init_le_foldl_max {α : Type} [LinearOrder α] :
    ∀ (xs : List α) (acc : α), acc ≤ xs.foldl max acc := by
  intro xs
  induction xs with
  | nil => intro acc; exact le_refl acc
  | cons y ys ih =>
    intro acc
    rw [List.foldl_cons]
    exact le_trans (le_max_left acc y) (ih (max acc y))

theorem mem_le_foldl_max {α : Type} [LinearOrder α] :
    ∀ (xs : List α) (acc a : α), a ∈ xs → a ≤ xs.foldl max acc := by
  intro xs
  induction xs with
  | nil => intro acc a ha; exact absurd ha (List.not_mem_nil a)
  | cons y ys ih =>
    intro acc a ha
    rw [List.foldl_cons]
    rcases List.mem_cons.mp ha with ha | ha
    · subst ha
      exact le_trans (le_max_right acc a) (init_le_foldl_max ys (max acc a))
    · exact ih (max acc y) a ha

theorem le_max?_of_mem {α : Type} [LinearOrder α] {l : List α} {a m : α}
    (hm : l.max? = some m) (ha : a ∈ l) : a ≤ m := by
  cases l with
  | nil => exact absurd ha (List.not_mem_nil a)
  | cons x xs =>
    simp only [List.max?] at hm
    rcases List.mem_cons.mp ha with ha | ha
    · subst ha
      rw [← Option.some_inj.mp hm]
      exact init_le_foldl_max xs a
    · rw [← Option.some_inj.mp hm]
      exact mem_le_foldl_max xs x a ha

theorem foldl_max_eq {α : Type} [LinearOrder α] {a : α} :
    ∀ (xs : List α) (acc : α), (a = acc ∨ a ∈ xs) → acc ≤ a →
      (∀ x ∈ xs, x ≤ a) → xs.foldl max acc = a := by
  intro xs
  induction xs with
  | nil =>
    intro acc hmem hle _
    rcases hmem with h | h
    · exact h.symm
    · exact absurd h (List.not_mem_nil a)
  | cons y ys ih =>
    intro acc hmem hacc hall
    rw [List.foldl_cons]
    have hay : y ≤ a := hall y (List.mem_cons_self y ys)
    apply ih
    · rcases hmem with h | h
      · subst h
        exact Or.inl (max_eq_left hay).symm
      · rcases List.mem_cons.mp h with h | h
        · subst h
          exact Or.inl (max_eq_right hacc).symm
        · exact Or.inr h
    · exact max_le hacc hay
    · intro x hx; exact hall x (List.mem_cons_of_mem y hx)

theorem max?_eq_some_of_mem_of_le {α : Type} [LinearOrder α] {l : List α}
    {a : α} (ha : a ∈ l) (hle : ∀ x ∈ l, x ≤ a) : l.max? = some a := by
  cases l with
  | nil => exact absurd ha (List.not_mem_nil a)
  | cons x xs =>
    simp only [List.max?, Option.some_inj]
    rcases List.mem_cons.mp ha with h | h
    · exact foldl_max_eq xs x (Or.inl h)
        (le_of_eq h.symm) (fun z hz => hle z (List.mem_cons_of_mem x hz))
    · exact foldl_max_eq xs x (Or.inr h)
        (hle x (List.mem_cons_self x xs))
        (fun z hz => hle z (List.mem_cons_of_mem x hz))

theorem foldl_perm_of_comm {α β : Type} {f : β → α → β}
    (hc : ∀ b a1 a2, f (f b a1) a2 = f (f b a2) a1)
    {l1 l2 : List α} (h : l1.Perm l2) :
    ∀ b, l1.foldl f b = l2.foldl f b := by
  induction h with
  | nil => intro b; rfl
  | cons x _ ih =>
    intro b
    rw [List.foldl_cons, List.foldl_cons, ih]
  | swap x y l =>
    intro b
    rw [List.foldl_cons, List.foldl_cons, List.foldl_cons, List.foldl_cons,
      hc]
  | trans _ _ ih1 ih2 =>
    intro b
    rw [ih1, ih2]

theorem getD_middle {α : Type} (l : List α) (x : α) (t : List α) (d : α) :
    (l ++ x :: t).getD l.length d = x := by
  rw [List.getD_eq_getElem _ _ (by simp)]
  rw [List.getElem_append_right (le_refl l.length)]
  simp

theorem find?_congr_mem {α : Type} {p q : α → Bool} :
    ∀ l : List α, (∀ x ∈ l, p x = q x) → l.find? p = l.find? q := by
  intro l
  induction l with
  | nil => intro _; rfl
  | cons x xs ih =>
    intro h
    have hx := h x (List.mem_cons_self x xs)
    rw [List.find?_cons, List.find?_cons, hx]
    cases q x with
    | true => rfl
    | false => exact ih (fun z hz => h z (List.mem_cons_of_mem x hz))

/-! ## Lemmas about the GML build phase -/

theorem canonNat_single (x : ℕ) : canonNat [x] = [x] := rfl

theorem mem_canonNat (a : ℕ) (vs : List ℕ) : a ∈ canonNat vs ↔ a ∈ vs :=
  mem_sortedSetBy natLtB_tri a vs

theorem gmlGid_lt (nodes : List Node) {id : String}
    (hid : id ∈ nodes.map Node.id)
    (hlen : (gmlNodeIDs nodes).length = nodes.length) :
    gmlGid nodes id < nodes.length := by
  have h1 : id ∈ gmlNodeIDs nodes := (mem_sortedSetBy strLt_tri id _).mpr hid
  have h2 : (gmlNodeIDs nodes).indexOf id < (gmlNodeIDs nodes).length :=
    List.indexOf_lt_length.mpr h1
  rw [hlen] at h2
  exact h2

theorem gmlGid_eq_of_not_mem (nodes : List Node) {id : String}
    (hid : id ∉ nodes.map Node.id) :
    gmlGid nodes id = (gmlNodeIDs nodes).length :=
  List.indexOf_eq_length.mpr (fun h => hid ((mem_sortedSetBy strLt_tri id _).mp h))

theorem gmlGid_inj (nodes : List Node) {a b : String}
    (ha : a ∈ nodes.map Node.id) (hb : b ∈ nodes.map Node.id)
    (h : gmlGid nodes a = gmlGid nodes b) : a = b := by
  have ha2 : a ∈ gmlNodeIDs nodes := (mem_sortedSetBy strLt_tri a _).mpr ha
  have hb2 : b ∈ gmlNodeIDs nodes := (mem_sortedSetBy strLt_tri b _).mpr hb
  have hla := List.indexOf_lt_length.mpr ha2
  have h1 := List.getElem_indexOf hla
  have h2 := List.getElem_indexOf (List.indexOf_lt_length.mpr hb2)
  unfold gmlGid at h
  rw [← h1, ← h2]
  congr 1

theorem gmlBuild_ok_iff (nodes : List Node) (edges : List Edge)
    {res : List Simplex} (h : gmlBuild nodes edges = Except.ok res) :
    (gmlNodeIDs nodes).length = nodes.length ∧
      processEdges (gmlGid nodes) (gmlNodeSimplices nodes) edges
        = Except.ok res := by
  unfold gmlBuild at h
  by_cases hg : (gmlNodeIDs nodes).length = nodes.length
  · rw [if_pos hg] at h
    exact ⟨hg, h⟩
  · rw [if_neg hg] at h
    exact absurd h (by simp)

theorem gmlBuild_ok_nodup {nodes : List Node} {edges : List Edge}
    {res : List Simplex} (h : gmlBuild nodes edges = Except.ok res) :
    (nodes.map Node.id).Nodup := by
  have hg := (gmlBuild_ok_iff nodes edges h).1
  have h1 := length_sortedSetBy strLt_tri strLt_trans strLt_irr
    (nodes.map Node.id)
  apply nodup_of_dedup_length_eq
  have h2 : (nodes.map Node.id).length = nodes.length := List.length_map _ _
  unfold gmlNodeIDs at hg
  omega

theorem processEdges_extends (gid : String → ℕ) :
    ∀ (es : List Edge) (acc res : List Simplex),
      processEdges gid acc es = Except.ok res → ∃ t, res = acc ++ t := by
  intro es
  induction es with
  | nil =>
    intro acc res h
    simp only [processEdges, Except.ok.injEq] at h
    exact ⟨[], by simp [h]⟩
  | cons e es ih =>
    intro acc res h
    cases hw : e.weight with
    | some w =>
      simp only [processEdges, hw] at h
      obtain ⟨t, ht⟩ := ih _ _ h
      exact ⟨mkSimplex [gid e.source, gid e.target] w :: t, by
        rw [ht, List.append_assoc]; rfl⟩
    | none =>
      cases hu : getSimplexByID acc (gid e.source) with
      | none =>
        simp only [processEdges, hw, hu] at h
        exact Except.noConfusion h
      | some uS =>
        cases hv : getSimplexByID acc (gid e.target) with
        | none =>
          simp only [processEdges, hw, hu, hv] at h
          exact Except.noConfusion h
        | some vS =>
          simp only [processEdges, hw, hu, hv] at h
          obtain ⟨t, ht⟩ := ih _ _ h
          exact ⟨mkSimplex [gid e.source, gid e.target]
              (max uS.data vS.data) :: t, by
            rw [ht, List.append_assoc]; rfl⟩

theorem getSimplexByID_of_prefix {ns t : List Simplex} {u : ℕ} {x : Simplex}
    (h : getSimplexByID ns u = some x) :
    getSimplexByID (ns ++ t) u = some x := by
  unfold getSimplexByID at h ⊢
  rw [List.find?_append, h]
  rfl

theorem processEdges_ok_spec (gid : String → ℕ) (ns : List Simplex) :
    ∀ (es : List Edge) (tail res : List Simplex),
      processEdges gid (ns ++ tail) es = Except.ok res →
      res.length = ns.length + tail.length + es.length ∧
      ∀ k, k < es.length →
        ((∀ w, (es.getD k dummyEdge).weight = some w →
            res.getD (ns.length + tail.length + k) dummySimplex
              = mkSimplex [gid (es.getD k dummyEdge).source,
                  gid (es.getD k dummyEdge).target] w)
         ∧ ((es.getD k dummyEdge).weight = none →
             ∀ us vs,
               getSimplexByID ns (gid (es.getD k dummyEdge).source) = some us →
               getSimplexByID ns (gid (es.getD k dummyEdge).target) = some vs →
               res.getD (ns.length + tail.length + k) dummySimplex
                 = mkSimplex [gid (es.getD k dummyEdge).source,
                     gid (es.getD k dummyEdge).target]
                     (max us.data vs.data))) := by
  intro es
  induction es with
  | nil =>
    intro tail res h
    simp only [processEdges, Except.ok.injEq] at h
    constructor
    · rw [← h]; simp
    · intro k hk
      exact absurd hk (by simp)
  | cons e es ih =>
    intro tail res h
    cases hw : e.weight with
    | some w =>
      simp only [processEdges, hw] at h
      rw [List.append_assoc] at h
      obtain ⟨hlen, hks⟩ := ih (tail ++ [mkSimplex [gid e.source, gid e.target] w]) res h
      have hlen2 : res.length = ns.length + tail.length + (es.length + 1) := by
        simp at hlen ⊢
        omega
      refine ⟨hlen2, ?_⟩
      intro k hk
      cases k with
      | zero =>
        constructor
        · intro w2 hw2
          simp only [List.getD_cons_zero] at hw2 ⊢
          rw [hw] at hw2
          obtain ⟨rfl⟩ : w = w2 := by
            exact Option.some_inj.mp hw2
          obtain ⟨t, ht⟩ := processEdges_extends gid es _ _ h
          rw [ht]
          rw [← List.append_assoc]
          have := getD_middle (ns ++ tail)
            (mkSimplex [gid e.source, gid e.target] w) t dummySimplex
          simpa using this
        · intro hnone
          simp only [List.getD_cons_zero] at hnone
          rw [hw] at hnone
          exact absurd hnone (by simp)
      | succ k2 =>
        have hk2 : k2 < es.length := by simpa using hk
        have hidx : ns.length + (tail.length + 1) + k2
            = ns.length + tail.length + (k2 + 1) := by omega
        have hres := hks k2 hk2
        constructor
        · intro w2 hw2
          simp only [List.getD_cons_succ] at hw2 ⊢
          have := (hres).1 w2 hw2
          simpa [hidx] using this
        · intro hnone us vs hus hvs
          simp only [List.getD_cons_succ] at hnone ⊢
          have := (hres).2 hnone us vs hus hvs
          simpa [hidx] using this
    | none =>
      cases hu : getSimplexByID (ns ++ tail) (gid e.source) with
      | none =>
        simp only [processEdges, hw, hu] at h
        exact Except.noConfusion h
      | some uS =>
        cases hv : getSimplexByID (ns ++ tail) (gid e.target) with
        | none =>
          simp only [processEdges, hw, hu, hv] at h
          exact Except.noConfusion h
        | some vS =>
          simp only [processEdges, hw, hu, hv] at h
          rw [List.append_assoc] at h
          obtain ⟨hlen, hks⟩ := ih
            (tail ++ [mkSimplex [gid e.source, gid e.target]
              (max uS.data vS.data)]) res h
          have hlen2 : res.length = ns.length + tail.length + (es.length + 1) := by
            simp at hlen ⊢
            omega
          refine ⟨hlen2, ?_⟩
          intro k hk
          cases k with
          | zero =>
            constructor
            · intro w2 hw2
              simp only [List.getD_cons_zero] at hw2
              rw [hw] at hw2
              exact absurd hw2 (by simp)
            · intro _ us vs hus hvs
              simp only [List.getD_cons_zero]
              have hus2 : getSimplexByID (ns ++ tail) (gid e.source)
                  = some us := getSimplexByID_of_prefix hus
              have hvs2 : getSimplexByID (ns ++ tail) (gid e.target)
                  = some vs := getSimplexByID_of_prefix hvs
              have heu : uS = us := by
                rw [hu] at hus2; exact Option.some_inj.mp hus2
              have hev : vS = vs := by
                rw [hv] at hvs2; exact Option.some_inj.mp hvs2
              subst heu; subst hev
              obtain ⟨t, ht⟩ := processEdges_extends gid es _ _ h
              rw [ht]
              rw [← List.append_assoc]
              have := getD_middle (ns ++ tail)
                (mkSimplex [gid e.source, gid e.target]
                  (max uS.data vS.data)) t dummySimplex
              simpa using this
          | succ k2 =>
            have hk2 : k2 < es.length := by simpa using hk
            have hidx : ns.length + (tail.length + 1) + k2
                = ns.length + tail.length + (k2 + 1) := by omega
            have hres := hks k2 hk2
            constructor
            · intro w2 hw2
              simp only [List.getD_cons_succ] at hw2 ⊢
              have := (hres).1 w2 hw2
              simpa [hidx] using this
            · intro hnone us vs hus hvs
              simp only [List.getD_cons_succ] at hnone ⊢
              have := (hres).2 hnone us vs hus hvs
              simpa [hidx] using this

def dummyNode : Node := ⟨"", none⟩

theorem processEdges_err (gid : String → ℕ) (n : ℕ) :
    ∀ (es : List Edge) (acc : List Simplex),
      (∀ s ∈ acc, ∀ w, s.vertices = [w] → w < n) →
      (∀ e ∈ es, e.weight = none) →
      (∃ e ∈ es, gid e.source = n ∨ gid e.target = n) →
      ∃ msg, processEdges gid acc es = Except.error msg := by
  intro es
  induction es with
  | nil =>
    intro acc _ _ hbad
    obtain ⟨e, he, _⟩ := hbad
    exact absurd he (List.not_mem_nil e)
  | cons e es ih =>
    intro acc hinv hall hbad
    have hw : e.weight = none := hall e (List.mem_cons_self e es)
    cases hu : getSimplexByID acc (gid e.source) with
    | none =>
      exact ⟨"Querying unknown simplex for edge creation",
        by simp only [processEdges, hw, hu]⟩
    | some uS =>
      cases hv : getSimplexByID acc (gid e.target) with
      | none =>
        exact ⟨"Querying unknown simplex for edge creation",
          by simp only [processEdges, hw, hu, hv]⟩
      | some vS =>
        have hus : gid e.source < n := by
          simp only [getSimplexByID] at hu
          have hmem := List.mem_of_find?_eq_some hu
          have hprop := List.find?_some hu
          have hvert : uS.vertices = [gid e.source] := by simpa using hprop
          exact hinv uS hmem _ hvert
        have hvt : gid e.target < n := by
          simp only [getSimplexByID] at hv
          have hmem := List.mem_of_find?_eq_some hv
          have hprop := List.find?_some hv
          have hvert : vS.vertices = [gid e.target] := by simpa using hprop
          exact hinv vS hmem _ hvert
        rcases hbad with ⟨e0, he0, hb0⟩
        rcases List.mem_cons.mp he0 with he0 | he0
        · subst he0
          rcases hb0 with hb | hb <;> omega
        · have hstep : processEdges gid acc (e :: es)
              = processEdges gid
                  (acc ++ [mkSimplex [gid e.source, gid e.target]
                    (max uS.data vS.data)]) es := by
            simp only [processEdges, hw, hu, hv]
          rw [hstep]
          apply ih
          · intro s hs w hvw
            rcases List.mem_append.mp hs with hs | hs
            · exact hinv s hs w hvw
            · have hseq : s = mkSimplex [gid e.source, gid e.target]
                  (max uS.data vS.data) := by simpa using hs
              subst hseq
              have husm : gid e.source
                  ∈ canonNat [gid e.source, gid e.target] :=
                (mem_canonNat _ _).mpr (by simp)
              have : canonNat [gid e.source, gid e.target] = [w] := hvw
              rw [this] at husm
              have : gid e.source = w := by simpa using husm
              omega
          · intro e2 he2
            exact hall e2 (List.mem_cons_of_mem e he2)
          · exact ⟨e0, he0, hb0⟩

theorem getSimplexByID_nodeSimplices (nodes : List Node)
    {src : String} {nd : Node} (hfind : findNode nodes src = some nd) :
    getSimplexByID (gmlNodeSimplices nodes) (gmlGid nodes src)
      = some (mkSimplex [gmlGid nodes nd.id] (nd.weight.getD 0)) := by
  have hmemnd : nd ∈ nodes := List.mem_of_find?_eq_some hfind
  have hid : nd.id = src := by
    have := List.find?_some hfind
    simpa using this
  have hsrc : src ∈ nodes.map Node.id := by
    rw [← hid]
    exact List.mem_map_of_mem _ hmemnd
  unfold getSimplexByID gmlNodeSimplices
  rw [List.find?_map]
  have hcongr : List.find?
      ((fun s => s.vertices == [gmlGid nodes src]) ∘
        (fun nd2 => mkSimplex [gmlGid nodes nd2.id] (nd2.weight.getD 0)))
      nodes
      = List.find? (fun nd2 => nd2.id == src) nodes := by
    apply find?_congr_mem
    intro x hx
    have hxid : x.id ∈ nodes.map Node.id := List.mem_map_of_mem _ hx
    have hv : (mkSimplex [gmlGid nodes x.id] (x.weight.getD 0)).vertices
        = [gmlGid nodes x.id] := canonNat_single _
    simp only [Function.comp_apply, hv]
    rcases eq_or_ne x.id src with he | he
    · subst he
      simp
    · have hne : gmlGid nodes x.id ≠ gmlGid nodes src :=
        fun hcon => he (gmlGid_inj nodes hxid hsrc hcon)
      simp [he, hne]
  rw [hcongr]
  have : List.find? (fun nd2 => nd2.id == src) nodes = some nd := hfind
  rw [this]
  rfl

/-! ## Claims about the GML reader -/

/-- Claim C7: for every GML input in which two node declarations carry
the same id, the reader fails with a duplicate-node-ID malformed-input
error rather than constructing a complex. -/
theorem gml_duplicate_node_rejected
    (nodes : List Node) (edges : List Edge) (i j : ℕ)
    (hi : i < nodes.length) (hj : j < nodes.length) (hne : i ≠ j)
    (heq : (nodes.getD i dummyNode).id = (nodes.getD j dummyNode).id) :
    ∃ msg, gmlBuild nodes edges = Except.error msg := by
  unfold gmlBuild
  by_cases hg : (gmlNodeIDs nodes).length = nodes.length
  · exfalso
    have hnodup : (nodes.map Node.id).Nodup := by
      apply nodup_of_dedup_length_eq
      have h1 := length_sortedSetBy strLt_tri strLt_trans strLt_irr
        (nodes.map Node.id)
      have h2 : (nodes.map Node.id).length = nodes.length :=
        List.length_map _ _
      unfold gmlNodeIDs at hg
      omega
    have hil : i < (nodes.map Node.id).length := by simpa using hi
    have hjl : j < (nodes.map Node.id).length := by simpa using hj
    rw [List.getD_eq_getElem nodes dummyNode hi,
      List.getD_eq_getElem nodes dummyNode hj] at heq
    have hgi : (nodes.map Node.id).get ⟨i, hil⟩
        = (nodes.map Node.id).get ⟨j, hjl⟩ := by
      simp only [List.get_eq_getElem, List.getElem_map]
      exact heq
    have := (hnodup.get_inj_iff).mp hgi
    apply hne
    simpa using this
  · rw [if_neg hg]
    exact ⟨"Encountered duplicate node ID", rfl⟩

/-- Claim C7 witness: a concrete input with a duplicated node id is
rejected. -/
theorem gml_duplicate_node_rejected_witness :
    ∃ msg, gmlBuild [⟨"a", none⟩, ⟨"a", none⟩] [] = Except.error msg :=
  gml_duplicate_node_rejected [⟨"a", none⟩, ⟨"a", none⟩] [] 0 1
    (by decide) (by decide) (by decide) (by decide)

/-- Claim C3, counterexample: an edge that carries a `weight` attribute
and references the undeclared node id `b` is accepted — the reader
returns a complex containing that edge instead of failing. -/
theorem gml_unknown_vertex_accepted_counterexample :
    ("b" ∉ ([⟨"a", none⟩] : List Node).map Node.id)
    ∧ gmlBuild [⟨"a", none⟩] [⟨"a", "b", some 5⟩]
        = Except.ok [⟨[0], 0⟩, ⟨[0, 1], 5⟩] := by
  constructor
  · decide
  · decide

/-- Claim C3, amended: an edge *without* a `weight` attribute whose
source or target references an undeclared node id makes the reader fail
(whenever no edge of the input carries a weight attribute — a weighted
edge is created without any endpoint lookup and can even smuggle in a
stray 0-simplex); an edge *with* a `weight` attribute referencing an
undeclared id is accepted silently. -/
theorem gml_unknown_vertex_error_unweighted
    (nodes : List Node) (edges : List Edge)
    (hall : ∀ e ∈ edges, e.weight = none)
    (e : Edge) (he : e ∈ edges)
    (hunk : e.source ∉ nodes.map Node.id ∨ e.target ∉ nodes.map Node.id) :
    ∃ msg, gmlBuild nodes edges = Except.error msg := by
  unfold gmlBuild
  by_cases hg : (gmlNodeIDs nodes).length = nodes.length
  · rw [if_pos hg]
    apply processEdges_err (gmlGid nodes) nodes.length edges
      (gmlNodeSimplices nodes)
    · intro s hs w hvw
      simp only [gmlNodeSimplices, List.mem_map] at hs
      obtain ⟨nd, hnd, hnd2⟩ := hs
      have hvs : s.vertices = [gmlGid nodes nd.id] := by
        rw [← hnd2]
        exact canonNat_single _
      rw [hvs] at hvw
      have hw : w = gmlGid nodes nd.id := by
        have := List.cons.injEq (gmlGid nodes nd.id) [] w [] |>.mp hvw
        exact this.1.symm
      rw [hw]
      exact gmlGid_lt nodes (List.mem_map_of_mem _ hnd) hg
    · exact hall
    · refine ⟨e, he, ?_⟩
      rcases hunk with h | h
      · left
        rw [gmlGid_eq_of_not_mem nodes h, hg]
      · right
        rw [gmlGid_eq_of_not_mem nodes h, hg]
  · rw [if_neg hg]
    exact ⟨"Encountered duplicate node ID", rfl⟩

/-- Claim C3 witness (amended form): a weightless edge to the undeclared
id `c` aborts the read. -/
theorem gml_unknown_vertex_error_unweighted_witness :
    ∃ msg, gmlBuild [⟨"a", none⟩, ⟨"b", none⟩]
      [⟨"a", "b", none⟩, ⟨"a", "c", none⟩] = Except.error msg :=
  gml_unknown_vertex_error_unweighted
    [⟨"a", none⟩, ⟨"b", none⟩] [⟨"a", "b", none⟩, ⟨"a", "c", none⟩]
    (by decide) ⟨"a", "c", none⟩ (by decide) (by decide)

/-- Claim C9: a GML edge parsed without a `weight` attribute yields a
1-simplex whose filtration value is the maximum of the values of its
endpoints' 0-simplices (a node's value being its own `weight` attribute,
or 0 when absent); an edge parsed with a `weight` attribute yields a
simplex carrying exactly the converted weight.  The simplex created for
the `k`-th edge sits at position `nodes.length + k` of the returned
vector. -/
theorem gml_edge_weights (nodes : List Node) (edges : List Edge)
    (res : List Simplex) (hok : gmlBuild nodes edges = Except.ok res)
    (k : ℕ) (hk : k < edges.length) :
    (∀ w, (edges.getD k dummyEdge).weight = some w →
       (res.getD (nodes.length + k) dummySimplex).data = w)
    ∧ ((edges.getD k dummyEdge).weight = none →
       ∀ nds ndt,
         findNode nodes (edges.getD k dummyEdge).source = some nds →
         findNode nodes (edges.getD k dummyEdge).target = some ndt →
         (res.getD (nodes.length + k) dummySimplex).data
           = max (nds.weight.getD 0) (ndt.weight.getD 0)) := by
  obtain ⟨hg, hpe⟩ := gmlBuild_ok_iff nodes edges hok
  have hpe2 : processEdges (gmlGid nodes) (gmlNodeSimplices nodes ++ []) edges
      = Except.ok res := by
    rwa [List.append_nil]
  obtain ⟨hlen, hks⟩ :=
    processEdges_ok_spec (gmlGid nodes) (gmlNodeSimplices nodes) edges [] res
      hpe2
  have hlen_ns : (gmlNodeSimplices nodes).length = nodes.length :=
    List.length_map _ _
  have hidx : (gmlNodeSimplices nodes).length + List.length ([] : List Simplex)
      + k = nodes.length + k := by
    simp [hlen_ns]
  obtain ⟨h1, h2⟩ := hks k hk
  constructor
  · intro w hw
    have hres := h1 w hw
    rw [hidx] at hres
    rw [hres]
    rfl
  · intro hnone nds ndt hfs hft
    have hus := getSimplexByID_nodeSimplices nodes hfs
    have hvt := getSimplexByID_nodeSimplices nodes hft
    have hres := h2 hnone _ _ hus hvt
    rw [hidx] at hres
    rw [hres]
    rfl

/-- Claim C9 witness: with nodes `a` (no weight, so value 0) and `b`
(weight 4), a weighted edge carries its own weight 9 and a weightless
edge carries `max 0 4`. -/
theorem gml_edge_weights_witness :
    ((([⟨[0], 0⟩, ⟨[1], 4⟩, ⟨[0, 1], 9⟩, ⟨[0, 1], 4⟩] : List Simplex).getD
        (2 + 0) dummySimplex).data = 9)
    ∧ ((([⟨[0], 0⟩, ⟨[1], 4⟩, ⟨[0, 1], 9⟩, ⟨[0, 1], 4⟩] : List Simplex).getD
        (2 + 1) dummySimplex).data
      = max ((Option.none).getD 0) ((some (4 : ℚ)).getD 0)) := by
  constructor
  · exact (gml_edge_weights [⟨"a", none⟩, ⟨"b", some 4⟩]
      [⟨"a", "b", some 9⟩, ⟨"a", "b", none⟩]
      [⟨[0], 0⟩, ⟨[1], 4⟩, ⟨[0, 1], 9⟩, ⟨[0, 1], 4⟩]
      (by decide) 0 (by decide)).1 9 (by decide)
  · exact (gml_edge_weights [⟨"a", none⟩, ⟨"b", some 4⟩]
      [⟨"a", "b", some 9⟩, ⟨"a", "b", none⟩]
      [⟨[0], 0⟩, ⟨[1], 4⟩, ⟨[0, 1], 9⟩, ⟨[0, 1], 4⟩]
      (by decide) 1 (by decide)).2 (by decide) ⟨"a", none⟩ ⟨"b", some 4⟩
      (by decide) (by decide)

/-! ## Claims about the weight normalization of the network tool -/

/-- The weights of the simplices of dimension at least 1, the range over
which the spec states the normalized extrema. -/
def posDimWeights (K : SimplicialComplex) : List ℚ :=
  (K.filter (fun s => decide (1 ≤ s.dimension))).map Simplex.data

/-- Claim C5: if normalization is requested and the maximum and minimum
weight of the input complex are equal, the transform is skipped entirely
— no simplex weight changes, and the division by `maxWeight - minWeight`
sits inside the skipped branch, so it is never executed. -/
theorem normalization_skipped_degenerate (K : SimplicialComplex)
    (h : (allWeights K).max? = (allWeights K).min?) :
    normalizeStep true K = K := by
  unfold normalizeStep
  rw [if_neg]
  intro hc
  exact hc.2 h

/-- Claim C5 witness: a complex whose weights are all 3 is returned
untouched. -/
theorem normalization_skipped_degenerate_witness :
    normalizeStep true [⟨[0], 3⟩, ⟨[1], 3⟩, ⟨[0, 1], 3⟩]
      = [⟨[0], 3⟩, ⟨[1], 3⟩, ⟨[0, 1], 3⟩] :=
  normalization_skipped_degenerate _ (by decide)

/-- Claim C2, counterexample: the extrema are taken over *all* simplices
(vertices included) while the transform touches only dimension ≥ 1, so a
complex whose global minimum sits on a vertex (vertices at weight 0,
edges at 5 and 7) normalizes its edges to 5/7 and 1 — the minimum over
the ≥1-dimensional simplices is 5/7, not 0. -/
theorem normalization_bounds_counterexample :
    ¬ ((posDimWeights (normalizeStep true
          [⟨[0], 0⟩, ⟨[1], 0⟩, ⟨[2], 0⟩, ⟨[0, 1], 5⟩, ⟨[1, 2], 7⟩])).min?
          = some 0
      ∧ (posDimWeights (normalizeStep true
          [⟨[0], 0⟩, ⟨[1], 0⟩, ⟨[2], 0⟩, ⟨[0, 1], 5⟩, ⟨[1, 2], 7⟩])).max?
          = some 1) := by
  intro hcon
  obtain ⟨hmin, -⟩ := hcon
  have e7 : (allWeights
      [⟨[0], 0⟩, ⟨[1], 0⟩, ⟨[2], 0⟩, ⟨[0, 1], 5⟩, ⟨[1, 2], 7⟩]).max?
      = some (7 : ℚ) := by decide
  have e0 : (allWeights
      [⟨[0], 0⟩, ⟨[1], 0⟩, ⟨[2], 0⟩, ⟨[0, 1], 5⟩, ⟨[1, 2], 7⟩]).min?
      = some (0 : ℚ) := by decide
  have hns : normalizeStep true
      [⟨[0], 0⟩, ⟨[1], 0⟩, ⟨[2], 0⟩, ⟨[0, 1], 5⟩, ⟨[1, 2], 7⟩]
      = [⟨[0], 0⟩, ⟨[1], 0⟩, ⟨[2], 0⟩,
         ⟨[0, 1], (5 - 0) / (7 - 0)⟩, ⟨[1, 2], (7 - 0) / (7 - 0)⟩] := by
    unfold normalizeStep
    rw [e7, e0]
    rw [if_pos ⟨rfl, by decide⟩]
    simp [Simplex.dimension]
  rw [hns] at hmin
  have hpw : posDimWeights
      [⟨[0], 0⟩, ⟨[1], 0⟩, ⟨[2], 0⟩,
       ⟨[0, 1], (5 - 0) / (7 - 0)⟩, ⟨[1, 2], (7 - 0) / (7 - 0)⟩]
      = [(5 - 0) / (7 - 0), (7 - 0) / (7 - 0)] := by
    unfold posDimWeights
    simp [Simplex.dimension]
  rw [hpw] at hmin
  have hv1 : ((5 : ℚ) - 0) / (7 - 0) = 5 / 7 := by norm_num
  have hv2 : ((7 : ℚ) - 0) / (7 - 0) = 1 := by norm_num
  rw [hv1, hv2] at hmin
  have : min (5 / 7 : ℚ) 1 = 5 / 7 := by
    apply min_eq_left
    norm_num
  simp only [List.min?, List.foldl, this] at hmin
  have : (5 / 7 : ℚ) = 0 := Option.some_inj.mp hmin
  norm_num at this

/-- Claim C2, amended: the transform maps every ≥1-dimensional simplex
affinely by `(w - minWeight) / (maxWeight - minWeight)` where the extrema
range over *all* simplices, vertices included.  Hence the minimum and
maximum over the ≥1-dimensional simplices after normalization are 0 and 1
provided the global extrema are each attained by some simplex of
dimension ≥ 1; a complex whose weights are all equal is left entirely
unchanged. -/
theorem normalization_bounds_amended :
    (∀ K : SimplicialComplex,
      (allWeights K).max? ≠ (allWeights K).min? →
      (∃ s, s ∈ K ∧ 1 ≤ s.dimension ∧ some s.data = (allWeights K).max?) →
      (∃ s, s ∈ K ∧ 1 ≤ s.dimension ∧ some s.data = (allWeights K).min?) →
      ((posDimWeights (normalizeStep true K)).min? = some 0
        ∧ (posDimWeights (normalizeStep true K)).max? = some 1))
    ∧ (∀ K : SimplicialComplex,
      (allWeights K).max? = (allWeights K).min? →
      normalizeStep true K = K) := by
  constructor
  · intro K hne hMex hmex
    obtain ⟨sM, hsM, hdM, hM⟩ := hMex
    obtain ⟨sm, hsm, hdm, hm⟩ := hmex
    have hMm : sm.data < sM.data := by
      have h1 : sm.data ≤ sM.data :=
        min?_le_of_mem hm.symm (List.mem_map_of_mem Simplex.data hsM)
      rcases lt_or_eq_of_le h1 with h | h
      · exact h
      · exact absurd (by rw [← hM, ← hm, h]) hne
    have hMne : sM.data - sm.data ≠ 0 := (sub_pos.mpr hMm).ne'
    have hguard : normalizeStep true K
        = K.map (fun s => if s.dimension = 0 then s
            else ⟨s.vertices, (s.data - sm.data) / (sM.data - sm.data)⟩) := by
      unfold normalizeStep
      rw [← hM, ← hm]
      rw [if_pos ⟨rfl, fun hc =>
        hMm.ne (Option.some_inj.mp hc).symm⟩]
    have hperm : posDimWeights (normalizeStep true K)
        = (K.filter (fun s => decide (1 ≤ s.dimension))).map
            (fun s => (s.data - sm.data) / (sM.data - sm.data)) := by
      rw [hguard]
      unfold posDimWeights
      rw [List.filter_map, List.map_map]
      have hpf : ((fun s => decide (1 ≤ s.dimension)) ∘
          (fun s => if s.dimension = 0 then s
            else ⟨s.vertices, (s.data - sm.data) / (sM.data - sm.data)⟩))
          = (fun s : Simplex => decide (1 ≤ s.dimension)) := by
        funext s
        simp only [Function.comp_apply]
        by_cases h0 : s.dimension = 0
        · rw [if_pos h0]
        · rw [if_neg h0]
          rfl
      rw [hpf]
      apply List.map_congr_left
      intro s hs
      have hd : ¬ s.dimension = 0 := by
        have := (List.mem_filter.mp hs).2
        simp only [decide_eq_true_eq] at this
        omega
      simp [Function.comp, hd]
    have hmemM : sM ∈ K.filter (fun s => decide (1 ≤ s.dimension)) :=
      List.mem_filter.mpr ⟨hsM, by simpa using hdM⟩
    have hmemm : sm ∈ K.filter (fun s => decide (1 ≤ s.dimension)) :=
      List.mem_filter.mpr ⟨hsm, by simpa using hdm⟩
    constructor
    · rw [hperm]
      apply min?_eq_some_of_mem_of_le
      · refine List.mem_map.mpr ⟨sm, hmemm, ?_⟩
        rw [sub_self, zero_div]
      · intro x hx
        obtain ⟨s, hs, hsx⟩ := List.mem_map.mp hx
        rw [← hsx]
        apply div_nonneg
        · rw [sub_nonneg]
          exact min?_le_of_mem hm.symm
            (List.mem_map_of_mem Simplex.data (List.mem_filter.mp hs).1)
        · exact (sub_pos.mpr hMm).le
    · rw [hperm]
      apply max?_eq_some_of_mem_of_le
      · refine List.mem_map.mpr ⟨sM, hmemM, ?_⟩
        exact div_self hMne
      · intro x hx
        obtain ⟨s, hs, hsx⟩ := List.mem_map.mp hx
        rw [← hsx]
        rw [div_le_one (sub_pos.mpr hMm)]
        apply sub_le_sub_right
        exact le_max?_of_mem hM.symm
          (List.mem_map_of_mem Simplex.data (List.mem_filter.mp hs).1)
  · intro K h
    unfold normalizeStep
    rw [if_neg]
    intro hc
    exact hc.2 h

/-- Claim C2 witness (amended form): with vertices at weight 1, an edge
at the global minimum 1 and an edge at the global maximum 3, the
normalized ≥1-dimensional weights have minimum 0 and maximum 1; and an
all-equal complex is left unchanged. -/
theorem normalization_bounds_amended_witness :
    ((posDimWeights (normalizeStep true
        [⟨[0], 1⟩, ⟨[1], 1⟩, ⟨[2], 1⟩, ⟨[0, 1], 1⟩, ⟨[1, 2], 3⟩])).min?
        = some 0
      ∧ (posDimWeights (normalizeStep true
        [⟨[0], 1⟩, ⟨[1], 1⟩, ⟨[2], 1⟩, ⟨[0, 1], 1⟩, ⟨[1, 2], 3⟩])).max?
        = some 1)
    ∧ normalizeStep true [⟨[0], 2⟩, ⟨[0, 1], 2⟩] = [⟨[0], 2⟩, ⟨[0, 1], 2⟩] :=
  ⟨normalization_bounds_amended.1
      [⟨[0], 1⟩, ⟨[1], 1⟩, ⟨[2], 1⟩, ⟨[0, 1], 1⟩, ⟨[1, 2], 3⟩]
      (by decide) (by decide) (by decide),
    normalization_bounds_amended.2 [⟨[0], 2⟩, ⟨[0, 1], 2⟩] (by decide)⟩

/-! ## Claims about the batch tool -/

/-- A single-edge graph (two vertices, one edge). -/
def gGraph : SimplicialComplex := [⟨[0], 0⟩, ⟨[1], 0⟩, ⟨[0, 1], 0⟩]

/-- A two-edge path (three vertices; its middle vertex has degree 2). -/
def hGraph : SimplicialComplex :=
  [⟨[0], 0⟩, ⟨[1], 0⟩, ⟨[2], 0⟩, ⟨[0, 1], 0⟩, ⟨[1, 2], 0⟩]

/-- A weighted triangle graph. -/
def triangleGraph : SimplicialComplex :=
  [⟨[0], 0⟩, ⟨[1], 0⟩, ⟨[2], 0⟩, ⟨[0, 1], 1⟩, ⟨[0, 2], 2⟩, ⟨[1, 2], 3⟩]

/-- Claim C1: the batch tool invokes `expander( K, dimension );` and
discards the returned complex, so with `--dimension 2` the triangle graph
is handed to the persistence engine *unexpanded* — every simplex it feeds
onward has dimension at most 1 and there are 6 of them, while the
Vietoris-Rips expansion to dimension 2 contains a 2-simplex and has 7
simplices.  The complexes handed onward are not the clique expansions the
claim asserts. -/
theorem batch_expansion_discarded :
    ((batchProcessComplex false 2 triangleGraph).all
        (fun s => decide (s.dimension ≤ 1)) = true)
    ∧ ((ripsExpand triangleGraph 2).any
        (fun s => decide (s.dimension = 2)) = true)
    ∧ (batchProcessComplex false 2 triangleGraph).length = 6
    ∧ (ripsExpand triangleGraph 2).length = 7 :=
  ⟨by decide, by decide, by decide, by decide⟩

/-- Claim C6: the records the batch tool writes for a graph are unchanged
under any permutation of the batch's processing order — the per-graph
pipeline depends only on the graph itself, and the batch-wide maximum
degree is permutation-invariant. -/
theorem batch_order_invariance (infinity : ℚ) (useSumOfDegrees : Bool)
    (dimension : ℕ) (B B2 : List SimplicialComplex) (K : SimplicialComplex)
    (h : B.Perm B2) :
    batchRecords infinity useSumOfDegrees dimension B K
      = batchRecords infinity useSumOfDegrees dimension B2 K := by
  have hmax : totalMaxDegree B = totalMaxDegree B2 := by
    unfold totalMaxDegree
    refine foldl_perm_of_comm ?_ h 0
    intro b a1 a2
    unfold maxDegreeStep
    by_cases h1 : (degreesList a1).isEmpty <;>
      by_cases h2 : (degreesList a2).isEmpty <;>
        (simp [h1, h2]; try omega)
  unfold batchRecords
  rw [hmax]

/-- Claim C6 witness: swapping a two-graph batch leaves the single-edge
graph's records unchanged. -/
theorem batch_order_invariance_witness :
    batchRecords 2 false 0 [gGraph, hGraph] gGraph
      = batchRecords 2 false 0 [hGraph, gGraph] gGraph :=
  batch_order_invariance 2 false 0 [gGraph, hGraph] [hGraph, gGraph] gGraph
    (List.Perm.swap hGraph gGraph [])

/-- Claim C4: both tools write one `birth<TAB>death` record per diagram
point, and an unpaired point is written with the finite death substitute
— `2 * maxWeight` in the network tool (the `maxWeight` variable's value
at output time), `infinity * maxDegree` in the batch tool — never an
infinity token (the death component of every record is a plain rational).
-/
theorem unpaired_points_finite_substitute :
    (∀ (normalize invert : Bool) (maxK : ℕ) (K : SimplicialComplex),
      networkLines normalize invert maxK K
        = (networkDiagramsOut normalize invert maxK K).map (fun pd =>
            (pd.dim, pd.points.map (fun p =>
              (p.x, p.y.getD (2 * (networkMaxWVar normalize K).getD 0))))))
    ∧ (∀ (infinity : ℚ) (useSumOfDegrees : Bool) (dimension : ℕ)
        (B : List SimplicialComplex) (K : SimplicialComplex),
      batchRecords infinity useSumOfDegrees dimension B K
        = recordsWithSub (infinity * (totalMaxDegree B : ℚ))
            useSumOfDegrees dimension K) := by
  constructor
  · intro n i mk K
    unfold networkLines
    apply List.map_congr_left
    intro pd _
    dsimp only
    rw [List.map_map]
    congr 1
    apply List.map_congr_left
    intro p _
    cases hp : p.y with
    | none => simp [hp]
    | some v => simp [hp]
  · intro inf us dim B K
    unfold batchRecords recordsWithSub
    apply List.map_congr_left
    intro pd _
    congr 1
    apply List.map_congr_left
    intro p _
    cases hp : p.y with
    | none => simp [hp]
    | some v => simp [hp]

/-- Claim C10: the finite death written for every unpaired point of every
graph in the batch equals `infinity` times the maximum degree over *all*
graphs of the whole batch; it is not the graph's own maximum degree, and
the values written for one graph change when other graphs are present in
the batch. -/
theorem batch_infinity_uses_global_max_degree :
    (∀ (infinity : ℚ) (useSumOfDegrees : Bool) (dimension : ℕ)
        (B : List SimplicialComplex) (K : SimplicialComplex),
      batchRecords infinity useSumOfDegrees dimension B K
        = recordsWithSub (infinity * (totalMaxDegree B : ℚ))
            useSumOfDegrees dimension K)
    ∧ batchRecords 2 false 0 [gGraph, hGraph] gGraph
        ≠ recordsWithSub (2 * (ownMaxDegree gGraph : ℚ)) false 0 gGraph
    ∧ batchRecords 2 false 0 [gGraph] gGraph
        ≠ batchRecords 2 false 0 [gGraph, hGraph] gGraph := by
  refine ⟨?_, ?_, ?_⟩
  · intro inf us dim B K
    unfold batchRecords recordsWithSub
    apply List.map_congr_left
    intro pd _
    congr 1
    apply List.map_congr_left
    intro p _
    cases hp : p.y with
    | none => simp [hp]
    | some v => simp [hp]
  · intro hcon
    have hd : batchDiagramsOut false 0 gGraph
        = [⟨0, [⟨1, none⟩]⟩, ⟨1, []⟩] := by decide
    have ht : totalMaxDegree [gGraph, hGraph] = 2 := by decide
    have ho : ownMaxDegree gGraph = 1 := by decide
    unfold batchRecords recordsWithSub at hcon
    rw [hd, ht, ho] at hcon
    simp only [List.map_cons, List.map_nil, List.cons.injEq,
      Prod.mk.injEq] at hcon
    obtain ⟨⟨-, hval, -⟩, -⟩ := hcon
    norm_num at hval
  · intro hcon
    have hd : batchDiagramsOut false 0 gGraph
        = [⟨0, [⟨1, none⟩]⟩, ⟨1, []⟩] := by decide
    have h1 : totalMaxDegree [gGraph] = 1 := by decide
    have h2 : totalMaxDegree [gGraph, hGraph] = 2 := by decide
    unfold batchRecords at hcon
    rw [hd, h1, h2] at hcon
    simp only [List.map_cons, List.map_nil, List.cons.injEq,
      Prod.mk.injEq] at hcon
    obtain ⟨⟨-, hval, -⟩, -⟩ := hcon
    norm_num at hval

/-! ## Claim about the command-line surface -/

/-- Claim C8: for both tools the exit status is `-1` (non-zero) when the
required positional arguments are missing; a completed run exits with
status 0; and an unreadable input file aborts the whole run by an
uncaught exception (no exit status, no result) rather than producing a
result. -/
theorem cli_exit_status :
    (∀ (args : List CmdArg) (input : Option SimplicialComplex),
      (positionalArgs args).length < 2 →
      networkMain args input = ToolOutcome.usageError
        ∧ exitStatus (networkMain args input) = some (-1))
    ∧ (∀ (args : List CmdArg) (input : Option SimplicialComplex)
        (out : List (ℕ × List (ℚ × ℚ))),
      networkMain args input = ToolOutcome.completed out →
      exitStatus (networkMain args input) = some 0)
    ∧ (∀ (args : List CmdArg) (k : ℕ),
      ¬ (positionalArgs args).length < 2 →
      stoulModel ((positionalArgs args).getD 1 "") = some k →
      networkMain args none
        = ToolOutcome.aborted ("Unable to read input file"))
    ∧ (∀ (args : List CmdArg) (input : Option (List SimplicialComplex)),
      (positionalArgs args).length < 1 →
      batchMain args input = ToolOutcome.usageError
        ∧ exitStatus (batchMain args input) = some (-1))
    ∧ (∀ (args : List CmdArg) (input : Option (List SimplicialComplex))
        (out : List (List (ℕ × List (ℚ × ℚ)))),
      batchMain args input = ToolOutcome.completed out →
      exitStatus (batchMain args input) = some 0)
    ∧ (∀ args : List CmdArg,
      ¬ (positionalArgs args).length < 1 →
      batchMain args none
        = ToolOutcome.aborted ("Unable to read input file")) := by
  refine ⟨?_, ?_, ?_, ?_, ?_, ?_⟩
  · intro args input hlt
    have h : networkMain args input = ToolOutcome.usageError := by
      unfold networkMain
      rw [if_pos hlt]
    exact ⟨h, by rw [h]; rfl⟩
  · intro args input out h
    rw [h]
    rfl
  · intro args k hlt hk
    unfold networkMain
    rw [if_neg hlt, hk]
  · intro args input hlt
    have h : batchMain args input = ToolOutcome.usageError := by
      unfold batchMain
      rw [if_pos hlt]
    exact ⟨h, by rw [h]; rfl⟩
  · intro args input out h
    rw [h]
    rfl
  · intro args hlt
    unfold batchMain
    rw [if_neg hlt]

/-- Claim C8 witness: a network call with one positional argument is a
usage error with exit status -1; with two positionals and an unreadable
file it aborts; a batch run over an empty readable batch completes with
exit status 0. -/
theorem cli_exit_status_witness :
    (networkMain [CmdArg.positional ("g.gml")] none = ToolOutcome.usageError
      ∧ exitStatus (networkMain [CmdArg.positional ("g.gml")] none)
          = some (-1))
    ∧ networkMain [CmdArg.positional ("g.gml"), CmdArg.positional ("2")] none
        = ToolOutcome.aborted ("Unable to read input file")
    ∧ exitStatus (batchMain [CmdArg.positional ("m.txt")] (some []))
        = some 0 :=
  ⟨cli_exit_status.1 [CmdArg.positional ("g.gml")] none (by decide),
    cli_exit_status.2.2.1 [CmdArg.positional ("g.gml"),
      CmdArg.positional ("2")] 2 (by decide) (by decide),
    cli_exit_status.2.2.2.2.1 [CmdArg.positional ("m.txt")] (some []) []
      (by decide)⟩

end AlephModel
